import Mathlib

/-!
Verification of the thread-safe datastore (a chained hash table keyed by
SHA-256 hex digests) against its specification.  The definitions below are a
shallow embedding of `src/thread_safe_storage/storage.py`:

* `Sha256` implements the digest used by `DataStore.hash_func`
  (`hashlib.sha256(key.encode()).hexdigest()`).
* `Node`, `DataStore` and the operations mirror the Python class; Python
  exceptions become the `StoreError` type, and the mutually recursive
  `insert`/`resize` pair is given a fuel parameter (`insertF`, `resizeF`),
  since Python's recursion is bounded only dynamically.
-/

namespace Sha256

/-- 2^32 truncation, applied wherever Python's fixed 32-bit SHA-256 words wrap. -/
def mask32 (n : Nat) : Nat := n % 4294967296

def add32 (a b : Nat) : Nat := (a + b) % 4294967296

/-- Bitwise complement restricted to 32 bits. -/
def not32 (x : Nat) : Nat := 4294967295 ^^^ x

/-- Rotate a 32-bit word right by `n` places. -/
def rotr32 (n x : Nat) : Nat := ((x >>> n) ||| (x <<< (32 - n))) % 4294967296

def bsig0 (x : Nat) : Nat := (rotr32 2 x) ^^^ (rotr32 13 x) ^^^ (rotr32 22 x)

def bsig1 (x : Nat) : Nat := (rotr32 6 x) ^^^ (rotr32 11 x) ^^^ (rotr32 25 x)

def ssig0 (x : Nat) : Nat := (rotr32 7 x) ^^^ (rotr32 18 x) ^^^ (x >>> 3)

def ssig1 (x : Nat) : Nat := (rotr32 17 x) ^^^ (rotr32 19 x) ^^^ (x >>> 10)

def ch (x y z : Nat) : Nat := (x &&& y) ^^^ ((not32 x) &&& z)

def maj (x y z : Nat) : Nat := (x &&& y) ^^^ (x &&& z) ^^^ (y &&& z)

/-- The 64 SHA-256 round constants, written in decimal. -/
def K : List Nat :=
  [1116352408, 1899447441, 3049323471, 3921009573, 961987163,
   1508970993, 2453635748, 2870763221, 3624381080, 310598401,
   607225278, 1426881987, 1925078388, 2162078206, 2614888103,
   3248222580, 3835390401, 4022224774, 264347078, 604807628,
   770255983, 1249150122, 1555081692, 1996064986, 2554220882,
   2821834349, 2952996808, 3210313671, 3336571891, 3584528711,
   113926993, 338241895, 666307205, 773529912, 1294757372,
   1396182291, 1695183700, 1986661051, 2177026350, 2456956037,
   2730485921, 2820302411, 3259730800, 3345764771, 3516065817,
   3600352804, 4094571909, 275423344, 430227734, 506948616,
   659060556, 883997877, 958139571, 1322822218, 1537002063,
   1747873779, 1955562222, 2024104815, 2227730452, 2361852424,
   2428436474, 2756734187, 3204031479, 3329325298]

/-- UTF-8 encoding of one scalar value, as Python's `str.encode()` produces. -/
def utf8Char (c : Char) : List Nat :=
  let n := c.toNat
  if n < 0x80 then [n]
  else if n < 0x800 then
    [0xC0 ||| (n >>> 6), 0x80 ||| (n &&& 0x3F)]
  else if n < 0x10000 then
    [0xE0 ||| (n >>> 12), 0x80 ||| ((n >>> 6) &&& 0x3F), 0x80 ||| (n &&& 0x3F)]
  else
    [0xF0 ||| (n >>> 18), 0x80 ||| ((n >>> 12) &&& 0x3F),
     0x80 ||| ((n >>> 6) &&& 0x3F), 0x80 ||| (n &&& 0x3F)]

def utf8Encode (s : String) : List Nat := s.data.flatMap utf8Char

/-- SHA-256 padding: append `0x80`, zeros, and the 64-bit big-endian bit length. -/
def pad (msg : List Nat) : List Nat :=
  let len := msg.length
  let zeros := (119 - (len % 64)) % 64
  let bitLen := len * 8
  msg ++ [0x80] ++ List.replicate zeros 0 ++
    ((List.range 8).map fun i => (bitLen >>> (8 * (7 - i))) &&& 0xFF)

/-- Split the padded byte list into 64-byte blocks. -/
def blocks (bs : List Nat) : List (List Nat) :=
  (List.range ((bs.length + 63) / 64)).map fun i => ((bs.drop (64 * i)).take 64)

/-- The 16 initial 32-bit message words of one 64-byte block (big-endian). -/
def toWords (block : List Nat) : List Nat :=
  (List.range 16).map fun i =>
    (block.getD (4 * i) 0) <<< 24 ||| (block.getD (4 * i + 1) 0) <<< 16 |||
    (block.getD (4 * i + 2) 0) <<< 8 ||| (block.getD (4 * i + 3) 0)

/-- Extend the message schedule by `n` further words. -/
def extendWords : Nat → List Nat → List Nat
  | 0, ws => ws
  | n + 1, ws =>
    let i := ws.length
    let w := add32 (add32 (ws.getD (i - 16) 0) (ssig0 (ws.getD (i - 15) 0)))
                   (add32 (ws.getD (i - 7) 0) (ssig1 (ws.getD (i - 2) 0)))
    extendWords n (ws ++ [w])

/-- Working state of the compression function: the eight 32-bit registers. -/
structure Regs where
  a : Nat
  b : Nat
  c : Nat
  d : Nat
  e : Nat
  f : Nat
  g : Nat
  h : Nat
  deriving Repr, DecidableEq

def roundStep (k w : Nat) (r : Regs) : Regs :=
  let t1 := add32 r.h (add32 (bsig1 r.e) (add32 (ch r.e r.f r.g) (add32 k w)))
  let t2 := add32 (bsig0 r.a) (maj r.a r.b r.c)
  { a := add32 t1 t2, b := r.a, c := r.b, d := r.c,
    e := add32 r.d t1, f := r.e, g := r.f, h := r.g }

def rounds : List (Nat × Nat) → Regs → Regs
  | [], r => r
  | (k, w) :: rest, r => rounds rest (roundStep k w r)

/-- Process one 64-byte block, updating the running hash registers. -/
def compress (h : Regs) (block : List Nat) : Regs :=
  let ws := extendWords 48 (toWords block)
  let r := rounds (K.zip ws) h
  { a := add32 h.a r.a, b := add32 h.b r.b, c := add32 h.c r.c,
    d := add32 h.d r.d, e := add32 h.e r.e, f := add32 h.f r.f,
    g := add32 h.g r.g, h := add32 h.h r.h }

def initRegs : Regs :=
  { a := 1779033703, b := 3144134277,
    c := 1013904242, d := 2773480762,
    e := 1359893119, f := 2600822924,
    g := 528734635, h := 1541459225 }

def hexDigit (n : Nat) : Char :=
  if n < 10 then Char.ofNat (48 + n) else Char.ofNat (87 + n)

/-- Lowercase hexadecimal rendering of one 32-bit word, eight digits. -/
def wordHex (w : Nat) : List Char :=
  (List.range 8).map fun i => hexDigit ((w >>> (4 * (7 - i))) &&& 15)

/-- The full digest: `hashlib.sha256(s.encode()).hexdigest()`. -/
def sha256hex (s : String) : String :=
  let r := (blocks (pad (utf8Encode s))).foldl compress initRegs
  String.mk ([r.a, r.b, r.c, r.d, r.e, r.f, r.g, r.h].flatMap wordHex)

end Sha256

namespace Storage

deriving instance DecidableEq for Except

/-- One chain node: `Node.__init__` stores an immutable key and a mutable
value.  The `next` link of the Python class is represented by the position of
the node in a `Chain` list, which models the same singly-linked,
cycle-free structure. -/
structure Node (α : Type) where
  key : String
  value : α
  deriving Repr, DecidableEq

/-- The exceptions the Python methods can raise.  `keyError` is the built-in
`KeyError` from the unguarded dict access `self.cache[hash_key]`;
`duplicateKey`, `keyNotFound` and `invalidCapacity` are the three
`RuntimeError`s raised explicitly; `attributeError` is the `AttributeError`
raised by `print(cur_node.key)` in `insert` when the bucket head is `None`. -/
inductive StoreError where
  | keyError (k : String)
  | duplicateKey (k : String)
  | keyNotFound (k : String)
  | invalidCapacity
  | attributeError
  deriving Repr, DecidableEq

/-- A bucket's chain.  The empty list models a bucket whose head is `None`
(which `delete` can produce); a nonempty list models the head node followed
by its `next` successors. -/
abbrev Chain (α : Type) := List (Node α)

/-- The `_cache` dict: insertion-ordered mapping from digest to bucket head,
modelled as an association list in insertion order (Python dicts preserve
insertion order, and assignment to an existing key keeps its position). -/
abbrev Cache (α : Type) := List (String × Chain α)

def dictGet? {α : Type} : Cache α → String → Option (Chain α)
  | [], _ => none
  | (d, c) :: rest, k => if d = k then some c else dictGet? rest k

/-- Dict assignment `cache[k] = c`: overwrite in place when the key exists,
append a new entry otherwise. -/
def dictSet {α : Type} : Cache α → String → Chain α → Cache α
  | [], k, c => [(k, c)]
  | (d, c₀) :: rest, k, c =>
    if d = k then (d, c) :: rest else (d, c₀) :: dictSet rest k c

/-- Membership test `k in cache`. -/
def dictContains {α : Type} (cache : Cache α) (k : String) : Bool :=
  (dictGet? cache k).isSome

/-- The `DataStore` object: `_cache` and `_capacity`.  The lock and the
class-level `_is_multithreading` flag have no functional content in a
sequential semantics and are not part of the state. -/
structure DataStore (α : Type) where
  cache : Cache α
  capacity : Int
  deriving Repr, DecidableEq

/-- The constructor `DataStore.__init__(self, capacity=10)`: it stores the
given capacity without any validation. -/
def DataStore.init {α : Type} (capacity : Int) : DataStore α :=
  { cache := [], capacity := capacity }

/-- The default-argument form `DataStore()`. -/
def DataStore.initDefault {α : Type} : DataStore α := DataStore.init 10

/-- `hash_func`: `hashlib.sha256(key.encode()).hexdigest()`. -/
def hash_func (key : String) : String := Sha256.sha256hex key

/-- `size`: `len(self._cache)` — the number of bucket entries, not nodes. -/
def DataStore.size {α : Type} (s : DataStore α) : Nat := s.cache.length

/-- `contains(key)`: `key in self.cache`.  Note the raw argument is used as
the dict key; no digest is computed here. -/
def DataStore.contains {α : Type} (s : DataStore α) (key : String) : Bool :=
  dictContains s.cache key

/-- `search(key)`: walk the chain at `hash_func(key)` for an exact key
match; `none` when the bucket is missing, the head is `None`, or the chain
is exhausted. -/
def DataStore.search {α : Type} (s : DataStore α) (key : String) : Option (Node α) :=
  match dictGet? s.cache (hash_func key) with
  | none => none
  | some chain => chain.find? (fun nd => nd.key == key)

/-- The chain walk of `update`: replace the value of the first node whose
key matches, returning that node and the rewritten chain; `none` when no
node matches (including the empty chain, whose walk never starts). -/
def updateChain {α : Type} : Chain α → String → α → Option (Node α × Chain α)
  | [], _, _ => none
  | nd :: tl, key, value =>
    if nd.key = key then some (⟨nd.key, value⟩, ⟨nd.key, value⟩ :: tl)
    else
      match updateChain tl key value with
      | none => none
      | some (r, tl') => some (r, nd :: tl')

/-- `update(key, value)`: unguarded dict access (so a missing bucket raises
`KeyError`), then the chain walk; an exhausted or `None`-headed chain raises
the `RuntimeError` modelled by `keyNotFound`. -/
def DataStore.update {α : Type} (s : DataStore α) (key : String) (value : α) :
    Except StoreError (Node α) × DataStore α :=
  match dictGet? s.cache (hash_func key) with
  | none => (.error (.keyError (hash_func key)), s)
  | some chain =>
    match updateChain chain key value with
    | some (nd, chain') =>
      (.ok nd, { s with cache := dictSet s.cache (hash_func key) chain' })
    | none => (.error (.keyNotFound key), s)

/-- The chain walk of `delete`: unlink the first node whose key matches
(`prev.next = cur.next`, or head replacement when there is no `prev`);
`none` when no node matches. -/
def removeFirst {α : Type} : Chain α → String → Option (Chain α)
  | [], _ => none
  | nd :: tl, key =>
    if nd.key = key then some tl
    else
      match removeFirst tl key with
      | none => none
      | some tl' => some (nd :: tl')

/-- `delete(key)`: unguarded dict access, then the unlinking walk.  Note
that both branches keep the bucket entry in the dict — deleting the sole
node leaves `cache[hash_key] = None` (the empty chain). -/
def DataStore.delete {α : Type} (s : DataStore α) (key : String) :
    Except StoreError Unit × DataStore α :=
  match dictGet? s.cache (hash_func key) with
  | none => (.error (.keyError (hash_func key)), s)
  | some chain =>
    match removeFirst chain key with
    | some chain' =>
      (.ok (), { s with cache := dictSet s.cache (hash_func key) chain' })
    | none => (.error (.keyNotFound key), s)

/-- `iterate()`: `iter(self.cache.items())`, the top-level bucket entries in
insertion order. -/
def DataStore.iterate {α : Type} (s : DataStore α) : List (String × Chain α) :=
  s.cache

/-- `math.ceil(capacity * 1.5)` as exact integer arithmetic: the ceiling of
`3 * c / 2` (Python's float product `c * 1.5` is exact for every capacity a
real run can reach). -/
def ceil15 (c : Int) : Int := (3 * c + 1) / 2

/-- The body of `insert` after the resize check: compute the digest, test
`self.contains(hash_key)`, walk the chain for a duplicate, and prepend.  A
bucket present with a `None` head hits `print(cur_node.key)` and raises
`AttributeError` before any mutation. -/
def insertCore {α : Type} (s : DataStore α) (key : String) (value : α) :
    Except StoreError (Node α) × DataStore α :=
  match dictGet? s.cache (hash_func key) with
  | some [] => (.error .attributeError, s)
  | some chain =>
    if chain.any (fun nd => nd.key == key) then (.error (.duplicateKey key), s)
    else (.ok ⟨key, value⟩,
      { s with cache := dictSet s.cache (hash_func key) (⟨key, value⟩ :: chain) })
  | none => (.ok ⟨key, value⟩,
      { s with cache := dictSet s.cache (hash_func key) [⟨key, value⟩] })

mutual

/-- `insert(key, value)`: grow first when `size == capacity`, then run the
chain logic.  `fuel` bounds the dynamic recursion depth of the mutually
recursive `insert`/`resize` pair; `none` means the fuel ran out before the
Python call stack would have returned. -/
def insertF {α : Type} : Nat → DataStore α → String → α →
    Option (Except StoreError (Node α) × DataStore α)
  | 0, _, _, _ => none
  | fuel + 1, s, key, value =>
    if (s.size : Int) = s.capacity then
      match resizeF fuel s (ceil15 s.capacity) with
      | none => none
      | some (.error e, s₁) => some (.error e, s₁)
      | some (.ok _, s₁) => some (insertCore s₁ key value)
    else
      some (insertCore s key value)

/-- `resize(new_capacity)`: validate, snapshot the chains, reset the cache,
set the capacity, then reinsert every node through the public `insert`. -/
def resizeF {α : Type} : Nat → DataStore α → Int →
    Option (Except StoreError Unit × DataStore α)
  | 0, _, _ => none
  | fuel + 1, s, newCapacity =>
    if newCapacity ≤ 0 then some (.error .invalidCapacity, s)
    else rehashF fuel { cache := [], capacity := newCapacity } (s.cache.map Prod.snd)

/-- The nested rehash loops of `resize`: `for node in nodes: while node:
self.insert(node.key, node.value)`.  An exception from `insert` propagates
with the partially rebuilt state. -/
def rehashF {α : Type} : Nat → DataStore α → List (Chain α) →
    Option (Except StoreError Unit × DataStore α)
  | 0, _, _ => none
  | _ + 1, t, [] => some (.ok (), t)
  | fuel + 1, t, [] :: rest => rehashF fuel t rest
  | fuel + 1, t, (nd :: tl) :: rest =>
    match insertF fuel t nd.key nd.value with
    | none => none
    | some (.error e, t') => some (.error e, t')
    | some (.ok _, t') => rehashF fuel t' (tl :: rest)

end

/-- All nodes stored anywhere in the table, in bucket order. -/
def entries {α : Type} (s : DataStore α) : List (Node α) :=
  s.cache.flatMap Prod.snd

/-- A coherent bucket: every node's digest is the bucket's dict key, and no
two nodes of the chain share a key. -/
def chainOK {α : Type} (d : String) (chain : Chain α) : Prop :=
  (∀ nd ∈ chain, hash_func nd.key = d) ∧ (chain.map Node.key).Nodup

/-- Well-formed table states: every bucket is coherent and the dict keys are
distinct (as they are in a Python dict).  Every state reachable from the
constructor satisfies this. -/
def WF {α : Type} (s : DataStore α) : Prop :=
  (∀ p ∈ s.cache, chainOK p.1 p.2) ∧ (s.cache.map Prod.fst).Nodup

/-- No bucket has a `None` head.  `delete` can break this; `insert` and
`resize` preserve it. -/
def NZ {α : Type} (s : DataStore α) : Prop :=
  ∀ p ∈ s.cache, p.2 ≠ []

/-- The observable binding relation: `search` finds a node carrying exactly
this key and value. -/
def mapsTo {α : Type} (s : DataStore α) (k : String) (v : α) : Prop :=
  s.search k = some ⟨k, v⟩

/-- The specification's error taxonomy (§7) groups both key-miss failures —
the built-in `KeyError` from the unguarded dict access and the explicit
`RuntimeError` raised after an exhausted chain walk — under the single name
`KeyNotFoundError`. -/
def isKeyNotFoundError : StoreError → Bool
  | .keyError _ => true
  | .keyNotFound _ => true
  | _ => false

instance {α : Type} (d : String) (c : Chain α) : Decidable (chainOK d c) := by
  unfold chainOK
  infer_instance

instance {α : Type} (s : DataStore α) : Decidable (WF s) := by
  unfold WF
  infer_instance

instance {α : Type} [DecidableEq α] (s : DataStore α) : Decidable (NZ s) := by
  unfold NZ
  infer_instance

instance {α : Type} [DecidableEq α] (s : DataStore α) (k : String) (v : α) :
    Decidable (mapsTo s k v) := by
  unfold mapsTo
  infer_instance

/-! ### Association-list (Python dict) lemmas -/

theorem dictGet?_mem {α : Type} {cache : Cache α} {k : String} {c : Chain α}
    (h : dictGet? cache k = some c) : (k, c) ∈ cache := by
  induction cache with
  | nil => simp [dictGet?] at h
  | cons p rest ih =>
    obtain ⟨d, c₀⟩ := p
    by_cases hd : d = k
    · subst hd
      simp [dictGet?] at h
      simp [h]
    · simp [dictGet?, hd] at h
      exact List.mem_cons_of_mem _ (ih h)

/-- A present key splits the dict into a prefix that avoids the key, the
entry itself, and a suffix; `dictSet` rewrites exactly the entry. -/
theorem dictGet?_split {α : Type} {cache : Cache α} {k : String} {c : Chain α}
    (h : dictGet? cache k = some c) :
    ∃ pre post, cache = pre ++ (k, c) :: post ∧ (∀ p ∈ pre, p.1 ≠ k) ∧
      ∀ c', dictSet cache k c' = pre ++ (k, c') :: post := by
  induction cache with
  | nil => simp [dictGet?] at h
  | cons p rest ih =>
    obtain ⟨d, c₀⟩ := p
    by_cases hd : d = k
    · subst hd
      simp [dictGet?] at h
      subst h
      exact ⟨[], rest, by simp, by simp, fun c' => by simp [dictSet]⟩
    · simp [dictGet?, hd] at h
      obtain ⟨pre, post, hsplit, hpre, hset⟩ := ih h
      refine ⟨(d, c₀) :: pre, post, by simp [hsplit], ?_, fun c' => by simp [dictSet, hd, hset c']⟩
      intro p hp
      rcases List.mem_cons.mp hp with h' | h'
      · subst h'; exact hd
      · exact hpre p h'

/-- An absent key means no entry carries it, and `dictSet` appends. -/
theorem dictGet?_absent {α : Type} {cache : Cache α} {k : String}
    (h : dictGet? cache k = none) :
    (∀ p ∈ cache, p.1 ≠ k) ∧ ∀ c', dictSet cache k c' = cache ++ [(k, c')] := by
  induction cache with
  | nil => exact ⟨by simp, fun c' => by simp [dictSet]⟩
  | cons p rest ih =>
    obtain ⟨d, c₀⟩ := p
    by_cases hd : d = k
    · subst hd; simp [dictGet?] at h
    · simp [dictGet?, hd] at h
      obtain ⟨hall, hset⟩ := ih h
      refine ⟨?_, fun c' => by simp [dictSet, hd, hset c']⟩
      intro p hp
      rcases List.mem_cons.mp hp with h' | h'
      · subst h'; exact hd
      · exact hall p h'

theorem dictGet?_append_left {α : Type} {pre post : Cache α} {k : String}
    (h : ∀ p ∈ pre, p.1 ≠ k) :
    dictGet? (pre ++ post) k = dictGet? post k := by
  induction pre with
  | nil => simp
  | cons p rest ih =>
    obtain ⟨d, c₀⟩ := p
    have hd : d ≠ k := h (d, c₀) (List.mem_cons_self _ _)
    simp only [List.cons_append, dictGet?, if_neg hd]
    exact ih fun p hp => h p (List.mem_cons_of_mem _ hp)

theorem dictGet?_dictSet_self {α : Type} {cache : Cache α} {k : String} (c' : Chain α) :
    dictGet? (dictSet cache k c') k = some c' := by
  induction cache with
  | nil => simp [dictSet, dictGet?]
  | cons p rest ih =>
    obtain ⟨d, c₀⟩ := p
    by_cases hd : d = k
    · subst hd; simp [dictSet, dictGet?]
    · simp [dictSet, dictGet?, hd, ih]

theorem dictGet?_dictSet_ne {α : Type} {cache : Cache α} {k d : String} (c' : Chain α)
    (h : d ≠ k) : dictGet? (dictSet cache k c') d = dictGet? cache d := by
  have hk : k ≠ d := fun hh => h hh.symm
  induction cache with
  | nil => simp [dictSet, dictGet?, hk]
  | cons p rest ih =>
    obtain ⟨d₀, c₀⟩ := p
    by_cases hd : d₀ = k
    · subst hd
      simp [dictSet, dictGet?, fun hh : d₀ = d => hk hh]
    · by_cases h₀ : d₀ = d
      · subst h₀
        simp [dictSet, dictGet?, hd]
      · simp [dictSet, dictGet?, hd, h₀, ih]

theorem dictSet_length_present {α : Type} {cache : Cache α} {k : String} {c : Chain α}
    (h : dictGet? cache k = some c) (c' : Chain α) :
    (dictSet cache k c').length = cache.length := by
  obtain ⟨pre, post, hsplit, -, hset⟩ := dictGet?_split h
  rw [hset c', hsplit]
  simp

theorem dictSet_map_fst_present {α : Type} {cache : Cache α} {k : String} {c : Chain α}
    (h : dictGet? cache k = some c) (c' : Chain α) :
    (dictSet cache k c').map Prod.fst = cache.map Prod.fst := by
  obtain ⟨pre, post, hsplit, -, hset⟩ := dictGet?_split h
  rw [hset c', hsplit]
  simp

theorem dictSet_map_fst_absent {α : Type} {cache : Cache α} {k : String}
    (h : dictGet? cache k = none) (c' : Chain α) :
    (dictSet cache k c').map Prod.fst = cache.map Prod.fst ++ [k] := by
  obtain ⟨-, hset⟩ := dictGet?_absent h
  rw [hset c']
  simp

theorem mem_dictSet {α : Type} {cache : Cache α} {k : String} {c' : Chain α} {p}
    (h : p ∈ dictSet cache k c') : p = (k, c') ∨ p ∈ cache := by
  induction cache with
  | nil =>
    simp [dictSet] at h
    exact Or.inl h
  | cons q rest ih =>
    obtain ⟨d, c₀⟩ := q
    by_cases hd : d = k
    · subst hd
      simp only [dictSet, if_pos rfl] at h
      rcases List.mem_cons.mp h with h' | h'
      · exact Or.inl h'
      · exact Or.inr (List.mem_cons_of_mem _ h')
    · simp only [dictSet, if_neg hd] at h
      rcases List.mem_cons.mp h with h' | h'
      · exact Or.inr (h' ▸ List.mem_cons_self _ _)
      · rcases ih h' with h'' | h''
        · exact Or.inl h''
        · exact Or.inr (List.mem_cons_of_mem _ h'')

/-! ### Chain-walk lemmas -/

theorem updateChain_some {α : Type} {chain : Chain α} {k : String} {v : α}
    {nd : Node α} {chain' : Chain α} (h : updateChain chain k v = some (nd, chain')) :
    nd = ⟨k, v⟩ ∧ chain'.map Node.key = chain.map Node.key := by
  induction chain generalizing chain' with
  | nil => simp [updateChain] at h
  | cons hd tl ih =>
    by_cases hk : hd.key = k
    · simp only [updateChain, if_pos hk, Option.some.injEq, Prod.mk.injEq] at h
      obtain ⟨hnd, hch⟩ := h
      subst hch
      exact ⟨by rw [← hnd, hk], by simp [hk]⟩
    · simp only [updateChain, if_neg hk] at h
      cases hrec : updateChain tl k v with
      | none => rw [hrec] at h; simp at h
      | some p =>
        obtain ⟨r, tl'⟩ := p
        rw [hrec] at h
        simp only [Option.some.injEq, Prod.mk.injEq] at h
        obtain ⟨hnd, hch⟩ := h
        obtain ⟨h₁, h₂⟩ := ih (hnd ▸ hrec)
        subst hch
        exact ⟨h₁, by simp [h₂]⟩

theorem updateChain_find?_ne {α : Type} {chain : Chain α} {k : String} {v : α}
    {nd : Node α} {chain' : Chain α} {q : String}
    (h : updateChain chain k v = some (nd, chain')) (hne : q ≠ k) :
    chain'.find? (fun n => n.key == q) = chain.find? (fun n => n.key == q) := by
  induction chain generalizing chain' with
  | nil => simp [updateChain] at h
  | cons hd tl ih =>
    by_cases hk : hd.key = k
    · simp only [updateChain, if_pos hk, Option.some.injEq, Prod.mk.injEq] at h
      obtain ⟨-, hch⟩ := h
      subst hch
      have hq : (hd.key == q) = false := by
        simp [hk]
        exact Ne.symm hne
      simp [List.find?, hq]
    · simp only [updateChain, if_neg hk] at h
      cases hrec : updateChain tl k v with
      | none => rw [hrec] at h; simp at h
      | some p =>
        obtain ⟨r, tl'⟩ := p
        rw [hrec] at h
        simp only [Option.some.injEq, Prod.mk.injEq] at h
        obtain ⟨hnd, hch⟩ := h
        subst hch
        cases hq : (hd.key == q) with
        | true => simp [List.find?, hq]
        | false => simpa [List.find?, hq] using ih (hnd ▸ hrec)

theorem updateChain_mem_keys {α : Type} {chain : Chain α} {k : String} {v : α}
    (h : k ∈ chain.map Node.key) : (updateChain chain k v).isSome := by
  induction chain with
  | nil => simp at h
  | cons hd tl ih =>
    by_cases hk : hd.key = k
    · simp [updateChain, hk]
    · simp only [List.map_cons, List.mem_cons] at h
      rcases h with h | h
      · exact absurd h.symm hk
      · have := ih h
        simp only [updateChain, if_neg hk]
        cases hrec : updateChain tl k v with
        | none => rw [hrec] at this; simp at this
        | some p => obtain ⟨r, tl'⟩ := p; simp

/-! ### Entries, well-formedness and search characterisation -/

theorem mem_entries {α : Type} {s : DataStore α} {nd : Node α} :
    nd ∈ entries s ↔ ∃ p ∈ s.cache, nd ∈ p.2 := by
  simp [entries, List.mem_flatMap]

theorem dictGet?_of_mem_nodup {α : Type} {cache : Cache α} {d : String} {c : Chain α}
    (hnd : (cache.map Prod.fst).Nodup) (hmem : (d, c) ∈ cache) :
    dictGet? cache d = some c := by
  induction cache with
  | nil => simp at hmem
  | cons p rest ih =>
    obtain ⟨d₀, c₀⟩ := p
    simp only [List.map_cons, List.nodup_cons] at hnd
    rcases List.mem_cons.mp hmem with h' | h'
    · obtain ⟨h₁, h₂⟩ := Prod.mk.injEq .. ▸ h'
      subst h₁; subst h₂
      simp [dictGet?]
    · have hd : d₀ ≠ d := by
        intro hh
        exact hnd.1 (hh ▸ (List.mem_map.mpr ⟨(d, c), h', rfl⟩))
      simp only [dictGet?, if_neg hd]
      exact ih hnd.2 h'

theorem find?_key_of_nodup {α : Type} {chain : Chain α} {k : String} {v : α}
    (hnd : (chain.map Node.key).Nodup) (hmem : (⟨k, v⟩ : Node α) ∈ chain) :
    chain.find? (fun n => n.key == k) = some ⟨k, v⟩ := by
  induction chain with
  | nil => simp at hmem
  | cons hd tl ih =>
    simp only [List.map_cons, List.nodup_cons] at hnd
    rcases List.mem_cons.mp hmem with h' | h'
    · subst h'
      simp [List.find?]
    · have hk : hd.key ≠ k := by
        intro hh
        exact hnd.1 (hh ▸ (List.mem_map.mpr ⟨⟨k, v⟩, h', rfl⟩))
      have hk' : (hd.key == k) = false := by simpa using hk
      simp only [List.find?, hk']
      exact ih hnd.2 h'

theorem chainOK_sub {α : Type} {d : String} {c : Chain α} {s : DataStore α}
    (hwf : WF s) (hmem : (d, c) ∈ s.cache) : chainOK d c :=
  hwf.1 (d, c) hmem

theorem mapsTo_mem_entries {α : Type} {s : DataStore α} {k : String} {v : α}
    (h : mapsTo s k v) : (⟨k, v⟩ : Node α) ∈ entries s := by
  unfold mapsTo DataStore.search at h
  cases hget : dictGet? s.cache (hash_func k) with
  | none => rw [hget] at h; simp at h
  | some chain =>
    rw [hget] at h
    simp only at h
    exact mem_entries.mpr ⟨(hash_func k, chain), dictGet?_mem hget,
      List.mem_of_find?_eq_some h⟩

theorem mem_entries_mapsTo {α : Type} {s : DataStore α} {k : String} {v : α}
    (hwf : WF s) (h : (⟨k, v⟩ : Node α) ∈ entries s) : mapsTo s k v := by
  obtain ⟨p, hp, hnd⟩ := mem_entries.mp h
  obtain ⟨d, c⟩ := p
  obtain ⟨hhash, hnodup⟩ := chainOK_sub hwf hp
  have hd : hash_func k = d := by
    have h' := hhash (⟨k, v⟩ : Node α) hnd
    simpa using h'
  simp only [mapsTo, DataStore.search, hd, dictGet?_of_mem_nodup hwf.2 hp]
  exact find?_key_of_nodup hnodup hnd

theorem mapsTo_iff_mem_entries {α : Type} {s : DataStore α} {k : String} {v : α}
    (hwf : WF s) : mapsTo s k v ↔ (⟨k, v⟩ : Node α) ∈ entries s :=
  ⟨mapsTo_mem_entries, mem_entries_mapsTo hwf⟩

theorem search_key_fresh {α : Type} {s : DataStore α} {k : String}
    (hfresh : ∀ nd ∈ entries s, nd.key ≠ k) : s.search k = none := by
  unfold DataStore.search
  cases hget : dictGet? s.cache (hash_func k) with
  | none => simp
  | some chain =>
    simp only
    rw [List.find?_eq_none]
    intro nd hnd
    simp only [beq_iff_eq]
    exact hfresh nd (mem_entries.mpr ⟨(hash_func k, chain), dictGet?_mem hget, hnd⟩)

theorem flatMap_keys_nodup {α : Type} :
    ∀ cache : Cache α, (∀ p ∈ cache, chainOK p.1 p.2) → (cache.map Prod.fst).Nodup →
      ((cache.flatMap Prod.snd).map Node.key).Nodup := by
  intro cache
  induction cache with
  | nil => simp
  | cons p rest ih =>
    intro hok hnd
    obtain ⟨d, c⟩ := p
    simp only [List.map_cons, List.nodup_cons] at hnd
    simp only [List.flatMap_cons, List.map_append]
    rw [List.nodup_append]
    refine ⟨(hok (d, c) (List.mem_cons_self _ _)).2,
      ih (fun q hq => hok q (List.mem_cons_of_mem _ hq)) hnd.2, ?_⟩
    intro a ha ha'
    obtain ⟨nd, hnd₁, hnd₂⟩ := List.mem_map.mp ha
    obtain ⟨nd', hnd₁', hnd₂'⟩ := List.mem_map.mp ha'
    obtain ⟨q, hq, hqmem⟩ := List.mem_flatMap.mp hnd₁'
    have h₁ : hash_func nd.key = d := (hok (d, c) (List.mem_cons_self _ _)).1 _ hnd₁
    have h₂ : hash_func nd'.key = q.1 :=
      (hok q (List.mem_cons_of_mem _ hq)).1 _ hqmem
    apply hnd.1
    have hdq : d = q.1 := by rw [← h₁, hnd₂, ← hnd₂', h₂]
    rw [hdq]
    exact List.mem_map.mpr ⟨q, hq, rfl⟩

theorem entries_keys_nodup {α : Type} {s : DataStore α} (hwf : WF s) :
    ((entries s).map Node.key).Nodup :=
  flatMap_keys_nodup s.cache hwf.1 hwf.2

theorem length_le_flatMap_length {α : Type} :
    ∀ cache : Cache α, (∀ p ∈ cache, p.2 ≠ []) →
      cache.length ≤ (cache.flatMap Prod.snd).length := by
  intro cache
  induction cache with
  | nil => simp
  | cons p rest ih =>
    intro hnz
    simp only [List.length_cons, List.flatMap_cons, List.length_append]
    have h₁ : 1 ≤ p.2.length := by
      cases hp : p.2 with
      | nil => exact absurd hp (hnz p (List.mem_cons_self _ _))
      | cons a l => simp
    have h₂ := ih fun q hq => hnz q (List.mem_cons_of_mem _ hq)
    omega

theorem size_le_entries_length {α : Type} {s : DataStore α} (hnz : NZ s) :
    s.size ≤ (entries s).length :=
  length_le_flatMap_length s.cache hnz

/-! ### The non-recursive core of `insert` -/

theorem insertCore_cases {α : Type} (s : DataStore α) (k : String) (v : α) :
    (dictGet? s.cache (hash_func k) = none ∧
      insertCore s k v =
        (.ok ⟨k, v⟩, ⟨dictSet s.cache (hash_func k) [⟨k, v⟩], s.capacity⟩)) ∨
    (dictGet? s.cache (hash_func k) = some [] ∧
      insertCore s k v = (.error .attributeError, s)) ∨
    (∃ chain, dictGet? s.cache (hash_func k) = some chain ∧ chain ≠ [] ∧
      chain.any (fun nd => nd.key == k) = true ∧
      insertCore s k v = (.error (.duplicateKey k), s)) ∨
    (∃ chain, dictGet? s.cache (hash_func k) = some chain ∧ chain ≠ [] ∧
      chain.any (fun nd => nd.key == k) = false ∧
      insertCore s k v =
        (.ok ⟨k, v⟩, ⟨dictSet s.cache (hash_func k) (⟨k, v⟩ :: chain), s.capacity⟩)) := by
  cases hget : dictGet? s.cache (hash_func k) with
  | none =>
    exact Or.inl ⟨rfl, by unfold insertCore; rw [hget]⟩
  | some chain =>
    cases chain with
    | nil =>
      exact Or.inr (Or.inl ⟨rfl, by unfold insertCore; rw [hget]⟩)
    | cons nd tl =>
      cases hany : (nd :: tl).any (fun n => n.key == k) with
      | true =>
        refine Or.inr (Or.inr (Or.inl ⟨nd :: tl, rfl, by simp, hany, ?_⟩))
        unfold insertCore
        rw [hget]
        dsimp only
        rw [if_pos hany]
      | false =>
        refine Or.inr (Or.inr (Or.inr ⟨nd :: tl, rfl, by simp, hany, ?_⟩))
        unfold insertCore
        rw [hget]
        dsimp only
        rw [if_neg (by simp [hany])]

theorem WF_dictSet_present {α : Type} {s : DataStore α} (hwf : WF s) {d : String}
    {c : Chain α} (hget : dictGet? s.cache d = some c) {c' : Chain α}
    (hok : chainOK d c') (cap : Int) :
    WF (⟨dictSet s.cache d c', cap⟩ : DataStore α) := by
  refine ⟨?_, ?_⟩
  · intro p hp
    rcases mem_dictSet hp with h' | h'
    · subst h'; exact hok
    · exact hwf.1 p h'
  · show ((dictSet s.cache d c').map Prod.fst).Nodup
    rw [dictSet_map_fst_present hget]
    exact hwf.2

theorem WF_dictSet_absent {α : Type} {s : DataStore α} (hwf : WF s) {d : String}
    (hget : dictGet? s.cache d = none) {c' : Chain α} (hok : chainOK d c')
    (cap : Int) : WF (⟨dictSet s.cache d c', cap⟩ : DataStore α) := by
  refine ⟨?_, ?_⟩
  · intro p hp
    rcases mem_dictSet hp with h' | h'
    · subst h'; exact hok
    · exact hwf.1 p h'
  · show ((dictSet s.cache d c').map Prod.fst).Nodup
    rw [dictSet_map_fst_absent hget]
    rw [List.nodup_append]
    refine ⟨hwf.2, List.nodup_singleton d, ?_⟩
    intro a ha hd
    obtain ⟨p, hp, hpa⟩ := List.mem_map.mp ha
    simp only [List.mem_singleton] at hd
    exact (dictGet?_absent hget).1 p hp (hpa.trans hd)

theorem NZ_dictSet {α : Type} {s : DataStore α} (hnz : NZ s) {d : String}
    {c' : Chain α} (hc : c' ≠ []) (cap : Int) :
    NZ (⟨dictSet s.cache d c', cap⟩ : DataStore α) := by
  intro p hp
  rcases mem_dictSet hp with h' | h'
  · subst h'; exact hc
  · exact hnz p h'

theorem mem_entries_dictSet_cons {α : Type} {s : DataStore α} {d : String}
    {c : Chain α} (hget : dictGet? s.cache d = some c) (node : Node α) (cap : Int)
    (nd : Node α) :
    nd ∈ entries (⟨dictSet s.cache d (node :: c), cap⟩ : DataStore α) ↔
      nd = node ∨ nd ∈ entries s := by
  obtain ⟨pre, post, hsplit, -, hset⟩ := dictGet?_split hget
  simp only [entries]
  rw [hset (node :: c), hsplit]
  simp only [List.flatMap_append, List.flatMap_cons, List.mem_append, List.mem_cons]
  tauto

theorem entries_length_dictSet_cons {α : Type} {s : DataStore α} {d : String}
    {c : Chain α} (hget : dictGet? s.cache d = some c) (node : Node α) (cap : Int) :
    (entries (⟨dictSet s.cache d (node :: c), cap⟩ : DataStore α)).length =
      (entries s).length + 1 := by
  obtain ⟨pre, post, hsplit, -, hset⟩ := dictGet?_split hget
  simp only [entries]
  rw [hset (node :: c), hsplit]
  simp only [List.flatMap_append, List.flatMap_cons, List.length_append, List.length_cons]
  omega

theorem mem_entries_dictSet_absent {α : Type} {s : DataStore α} {d : String}
    (hget : dictGet? s.cache d = none) (c' : Chain α) (cap : Int) (nd : Node α) :
    nd ∈ entries (⟨dictSet s.cache d c', cap⟩ : DataStore α) ↔
      nd ∈ entries s ∨ nd ∈ c' := by
  obtain ⟨-, hset⟩ := dictGet?_absent hget
  simp only [entries]
  rw [hset c']
  simp only [List.flatMap_append, List.flatMap_cons, List.flatMap_nil,
    List.append_nil, List.mem_append]

theorem entries_length_dictSet_absent {α : Type} {s : DataStore α} {d : String}
    (hget : dictGet? s.cache d = none) (c' : Chain α) (cap : Int) :
    (entries (⟨dictSet s.cache d c', cap⟩ : DataStore α)).length =
      (entries s).length + c'.length := by
  obtain ⟨-, hset⟩ := dictGet?_absent hget
  simp only [entries]
  rw [hset c']
  simp only [List.flatMap_append, List.flatMap_cons, List.flatMap_nil,
    List.append_nil, List.length_append]

theorem any_key_eq_false {α : Type} {chain : Chain α} {k : String}
    (hany : chain.any (fun nd => nd.key == k) = false) :
    ∀ nd ∈ chain, nd.key ≠ k := by
  intro nd hnd
  have := List.any_eq_false.mp hany nd hnd
  simpa using this

theorem chainOK_singleton {α : Type} (k : String) (v : α) :
    chainOK (hash_func k) [⟨k, v⟩] := by
  refine ⟨?_, by simp⟩
  intro nd hnd
  simp only [List.mem_singleton] at hnd
  subst hnd
  simp

theorem chainOK_cons_node {α : Type} {s : DataStore α} {k : String} {chain : Chain α}
    (hwf : WF s) (hget : dictGet? s.cache (hash_func k) = some chain)
    (hany : chain.any (fun nd => nd.key == k) = false) (v : α) :
    chainOK (hash_func k) ((⟨k, v⟩ : Node α) :: chain) := by
  obtain ⟨hhash, hnodup⟩ := chainOK_sub hwf (dictGet?_mem hget)
  refine ⟨?_, ?_⟩
  · intro nd hnd
    rcases List.mem_cons.mp hnd with h' | h'
    · subst h'; simp
    · exact hhash nd h'
  · simp only [List.map_cons, List.nodup_cons]
    refine ⟨?_, hnodup⟩
    intro hk
    obtain ⟨nd, hnd, hkey⟩ := List.mem_map.mp hk
    exact any_key_eq_false hany nd hnd hkey

theorem insertCore_capacity {α : Type} (s : DataStore α) (k : String) (v : α) :
    ((insertCore s k v).2).capacity = s.capacity := by
  rcases insertCore_cases s k v with ⟨-, heq⟩ | ⟨-, heq⟩ |
    ⟨chain, -, -, -, heq⟩ | ⟨chain, -, -, -, heq⟩ <;> rw [heq]

theorem insertCore_error_state {α : Type} {s s' : DataStore α} {k : String} {v : α}
    {e : StoreError} (h : insertCore s k v = (.error e, s')) : s' = s := by
  rcases insertCore_cases s k v with ⟨-, heq⟩ | ⟨-, heq⟩ |
    ⟨chain, -, -, -, heq⟩ | ⟨chain, -, -, -, heq⟩ <;> rw [heq] at h <;>
    simp only [Prod.mk.injEq] at h
  · exact absurd h.1 (by simp)
  · exact h.2.symm
  · exact h.2.symm
  · exact absurd h.1 (by simp)

theorem insertCore_WF {α : Type} {s s' : DataStore α} {k : String} {v : α}
    {r : Except StoreError (Node α)} (hwf : WF s)
    (h : insertCore s k v = (r, s')) : WF s' := by
  rcases insertCore_cases s k v with ⟨hget, heq⟩ | ⟨hget, heq⟩ |
    ⟨chain, hget, hne, hany, heq⟩ | ⟨chain, hget, hne, hany, heq⟩ <;>
    rw [heq] at h <;> simp only [Prod.mk.injEq] at h <;> rw [← h.2]
  · exact WF_dictSet_absent hwf hget (chainOK_singleton k v) _
  · exact hwf
  · exact hwf
  · exact WF_dictSet_present hwf hget (chainOK_cons_node hwf hget hany v) _

theorem insertCore_NZ {α : Type} {s s' : DataStore α} {k : String} {v : α}
    {r : Except StoreError (Node α)} (hnz : NZ s)
    (h : insertCore s k v = (r, s')) : NZ s' := by
  rcases insertCore_cases s k v with ⟨hget, heq⟩ | ⟨hget, heq⟩ |
    ⟨chain, hget, hne, hany, heq⟩ | ⟨chain, hget, hne, hany, heq⟩ <;>
    rw [heq] at h <;> simp only [Prod.mk.injEq] at h <;> rw [← h.2]
  · exact NZ_dictSet hnz (by simp) _
  · exact hnz
  · exact hnz
  · exact NZ_dictSet hnz (by simp) _

theorem insertCore_mem_entries {α : Type} {s s' : DataStore α} {k : String} {v : α}
    {r : Except StoreError (Node α)} (h : insertCore s k v = (r, s')) :
    ∀ nd, nd ∈ entries s' ↔
      (nd ∈ entries s ∨ (r = .ok ⟨k, v⟩ ∧ nd = ⟨k, v⟩)) := by
  intro nd
  rcases insertCore_cases s k v with ⟨hget, heq⟩ | ⟨hget, heq⟩ |
    ⟨chain, hget, hne, hany, heq⟩ | ⟨chain, hget, hne, hany, heq⟩ <;>
    rw [heq] at h <;> simp only [Prod.mk.injEq] at h <;>
    obtain ⟨h₁, h₂⟩ := h <;> rw [← h₂] <;> rw [← h₁]
  · rw [mem_entries_dictSet_absent hget _ _ nd]
    simp [or_comm]
  · simp
  · simp
  · rw [mem_entries_dictSet_cons hget _ _ nd]
    simp [or_comm]

theorem insertCore_fresh {α : Type} {s : DataStore α} {k : String} (v : α)
    (hnz : NZ s) (hfresh : ∀ nd ∈ entries s, nd.key ≠ k) :
    (insertCore s k v).1 = .ok ⟨k, v⟩ := by
  rcases insertCore_cases s k v with ⟨hget, heq⟩ | ⟨hget, heq⟩ |
    ⟨chain, hget, hne, hany, heq⟩ | ⟨chain, hget, hne, hany, heq⟩ <;> rw [heq]
  · exact absurd hget (fun hh => hnz _ (dictGet?_mem hh) rfl)
  · exfalso
    obtain ⟨nd, hnd, hkey⟩ := List.any_eq_true.mp hany
    exact hfresh nd (mem_entries.mpr ⟨_, dictGet?_mem hget, hnd⟩) (by simpa using hkey)

theorem insertCore_ok_length {α : Type} {s s' : DataStore α} {k : String} {v : α}
    {nd₀ : Node α} (h : insertCore s k v = (.ok nd₀, s')) :
    (entries s').length = (entries s).length + 1 := by
  rcases insertCore_cases s k v with ⟨hget, heq⟩ | ⟨hget, heq⟩ |
    ⟨chain, hget, hne, hany, heq⟩ | ⟨chain, hget, hne, hany, heq⟩ <;>
    rw [heq] at h <;> simp only [Prod.mk.injEq] at h
  · rw [← h.2]
    rw [entries_length_dictSet_absent hget _ _]
    simp
  · exact absurd h.1 (by simp)
  · exact absurd h.1 (by simp)
  · rw [← h.2]
    exact entries_length_dictSet_cons hget _ _

/-! ### Fuel-step equations and arithmetic helpers -/

theorem insertF_zero {α : Type} (s : DataStore α) (k : String) (v : α) :
    insertF 0 s k v = none := by
  rw [insertF]

theorem resizeF_zero {α : Type} (s : DataStore α) (n : Int) :
    resizeF 0 s n = none := by
  rw [resizeF]

theorem rehashF_zero {α : Type} (t : DataStore α) (chains : List (Chain α)) :
    rehashF 0 t chains = none := by
  rw [rehashF]

theorem insertF_no_resize {α : Type} (fuel : Nat) (s : DataStore α) (k : String)
    (v : α) (h : ¬((s.size : Int) = s.capacity)) :
    insertF (fuel + 1) s k v = some (insertCore s k v) := by
  rw [insertF, if_neg h]

theorem insertF_resize_step {α : Type} (fuel : Nat) (s : DataStore α) (k : String)
    (v : α) (h : (s.size : Int) = s.capacity) :
    insertF (fuel + 1) s k v =
      match resizeF fuel s (ceil15 s.capacity) with
      | none => none
      | some (.error e, s₁) => some (.error e, s₁)
      | some (.ok _, s₁) => some (insertCore s₁ k v) := by
  rw [insertF, if_pos h]

theorem resizeF_invalid {α : Type} (fuel : Nat) (s : DataStore α) {n : Int}
    (h : n ≤ 0) : resizeF (fuel + 1) s n = some (.error .invalidCapacity, s) := by
  rw [resizeF, if_pos h]

theorem resizeF_valid {α : Type} (fuel : Nat) (s : DataStore α) {n : Int}
    (h : ¬(n ≤ 0)) :
    resizeF (fuel + 1) s n = rehashF fuel ⟨[], n⟩ (s.cache.map Prod.snd) := by
  rw [resizeF, if_neg h]

theorem rehashF_nil {α : Type} (fuel : Nat) (t : DataStore α) :
    rehashF (fuel + 1) t [] = some (.ok (), t) := by
  rw [rehashF]

theorem rehashF_nil_chain {α : Type} (fuel : Nat) (t : DataStore α)
    (rest : List (Chain α)) :
    rehashF (fuel + 1) t ([] :: rest) = rehashF fuel t rest := by
  rw [rehashF]

theorem rehashF_cons {α : Type} (fuel : Nat) (t : DataStore α) (nd : Node α)
    (tl : Chain α) (rest : List (Chain α)) :
    rehashF (fuel + 1) t ((nd :: tl) :: rest) =
      match insertF fuel t nd.key nd.value with
      | none => none
      | some (.error e, t') => some (.error e, t')
      | some (.ok _, t') => rehashF fuel t' (tl :: rest) := by
  rw [rehashF]

theorem ceil15_ge_self {c : Int} (h : 0 ≤ c) : c ≤ ceil15 c := by
  unfold ceil15
  omega

theorem ceil15_pos {c : Int} (h : 0 < c) : 0 < ceil15 c := by
  unfold ceil15
  omega

theorem ceil15_gt_self {c : Int} (h : 0 < c) : c < ceil15 c := by
  unfold ceil15
  omega

/-- If an `insert` is observed to return and the table had strictly fewer
nodes than `capacity` (with no `None`-headed buckets), the growth check did
not fire, so the call is exactly the chain-insertion core. -/
theorem insertF_no_trigger {α : Type} {fuel : Nat} {s s' : DataStore α}
    {k : String} {v : α} {r : Except StoreError (Node α)} (hnz : NZ s)
    (hlen : ((entries s).length : Int) < s.capacity)
    (h : insertF fuel s k v = some (r, s')) : (r, s') = insertCore s k v := by
  cases fuel with
  | zero => rw [insertF_zero] at h; exact absurd h (by simp)
  | succ f =>
    have hsz : ¬((s.size : Int) = s.capacity) := by
      have h₁ : (s.size : Int) ≤ ((entries s).length : Int) := by
        exact_mod_cast size_le_entries_length hnz
      omega
    rw [insertF_no_resize f s k v hsz] at h
    exact (Option.some.injEq .. ▸ h).symm

theorem WF_empty {α : Type} (n : Int) : WF (⟨[], n⟩ : DataStore α) :=
  ⟨by simp, by simp⟩

theorem NZ_empty {α : Type} (n : Int) : NZ (⟨[], n⟩ : DataStore α) := by
  intro p hp
  simp at hp

theorem entries_empty {α : Type} (n : Int) : entries (⟨[], n⟩ : DataStore α) = [] := rfl

theorem flat_map_snd {α : Type} (cache : Cache α) :
    (cache.map Prod.snd).flatMap id = cache.flatMap Prod.snd := by
  induction cache with
  | nil => simp
  | cons p rest ih => simp [ih]

/-- The combined invariant of the mutually recursive `insert`/`resize`/rehash
loop, proved by induction on the fuel: starting from a well-formed table,
every call that returns preserves well-formedness, never loses a stored
node, succeeds when the inserted key is fresh, never shrinks the capacity,
and — when the node count fits the capacity — performs no nested growth. -/
theorem storeInv {α : Type} (fuel : Nat) :
    (∀ (s s' : DataStore α) (k : String) (v : α) (r : Except StoreError (Node α)),
      WF s → insertF fuel s k v = some (r, s') →
      WF s' ∧ (NZ s → NZ s') ∧ s.capacity ≤ s'.capacity ∧
      (∀ nd, nd ∈ entries s' ↔
        (nd ∈ entries s ∨ (r = Except.ok ⟨k, v⟩ ∧ nd = ⟨k, v⟩))) ∧
      (NZ s → 0 < s.capacity → (∀ nd ∈ entries s, nd.key ≠ k) →
        r = Except.ok ⟨k, v⟩)) ∧
    (∀ (s s' : DataStore α) (n : Int) (r : Except StoreError Unit),
      WF s → 0 < n → resizeF fuel s n = some (r, s') →
      WF s' ∧ NZ s' ∧ r = Except.ok () ∧ n ≤ s'.capacity ∧
      (∀ nd, nd ∈ entries s' ↔ nd ∈ entries s) ∧
      (((entries s).length : Int) ≤ n →
        s'.capacity = n ∧ (entries s').length = (entries s).length)) ∧
    (∀ (t t' : DataStore α) (chains : List (Chain α)) (r : Except StoreError Unit),
      WF t → NZ t → 0 < t.capacity →
      (((chains.flatMap id).map Node.key).Nodup) →
      (∀ nd ∈ entries t, ∀ nd' ∈ chains.flatMap id, nd.key ≠ nd'.key) →
      rehashF fuel t chains = some (r, t') →
      WF t' ∧ NZ t' ∧ r = Except.ok () ∧ t.capacity ≤ t'.capacity ∧
      (∀ nd, nd ∈ entries t' ↔ (nd ∈ entries t ∨ nd ∈ chains.flatMap id)) ∧
      ((((entries t).length : Int) + ((chains.flatMap id).length : Int) ≤ t.capacity) →
        t'.capacity = t.capacity ∧
        (entries t').length = (entries t).length + (chains.flatMap id).length)) := by
  induction fuel with
  | zero =>
    refine ⟨?_, ?_, ?_⟩
    · intro s s' k v r _ h
      rw [insertF_zero] at h
      exact absurd h (by simp)
    · intro s s' n r _ _ h
      rw [resizeF_zero] at h
      exact absurd h (by simp)
    · intro t t' chains r _ _ _ _ _ h
      rw [rehashF_zero] at h
      exact absurd h (by simp)
  | succ f ih =>
    obtain ⟨ihI, ihR, ihH⟩ := ih
    refine ⟨?_, ?_, ?_⟩
    · -- insert
      intro s s' k v r hwf h
      by_cases hsz : (s.size : Int) = s.capacity
      · rw [insertF_resize_step f s k v hsz] at h
        cases hres : resizeF f s (ceil15 s.capacity) with
        | none => rw [hres] at h; exact absurd h (by simp)
        | some p =>
          obtain ⟨r₂, s₁⟩ := p
          rw [hres] at h
          have hcap0 : (0 : Int) ≤ s.capacity := by
            rw [← hsz]; exact Int.natCast_nonneg _
          by_cases hn : ceil15 s.capacity ≤ 0
          · -- invalid nested capacity: resize fails leaving the state alone
            cases f with
            | zero => rw [resizeF_zero] at hres; exact absurd hres (by simp)
            | succ f' =>
              rw [resizeF_invalid f' s hn] at hres
              simp only [Option.some.injEq, Prod.mk.injEq] at hres
              obtain ⟨he, hs₁⟩ := hres
              subst hs₁
              cases r₂ with
              | ok u => exact absurd he (by simp)
              | error e =>
                dsimp only at h
                simp only [Option.some.injEq, Prod.mk.injEq] at h
                obtain ⟨hr, hs'⟩ := h
                subst hs'
                refine ⟨hwf, fun hz => hz, le_refl _, ?_, ?_⟩
                · intro nd
                  simp [← hr]
                · intro _ hpos _
                  exact absurd (ceil15_pos hpos) (by omega)
          · push_neg at hn
            obtain ⟨R1, R2, R3, R4, R5, R6⟩ := ihR s s₁ (ceil15 s.capacity) r₂ hwf hn hres
            subst R3
            dsimp only at h
            simp only [Option.some.injEq] at h
            have h' : insertCore s₁ k v = (r, s') := h
            refine ⟨insertCore_WF R1 h', fun _ => insertCore_NZ R2 h', ?_, ?_, ?_⟩
            · calc s.capacity ≤ ceil15 s.capacity := ceil15_ge_self hcap0
                _ ≤ s₁.capacity := R4
                _ = s'.capacity := by
                    have := insertCore_capacity s₁ k v
                    rw [h'] at this
                    exact this.symm
            · intro nd
              rw [insertCore_mem_entries h' nd, R5 nd]
            · intro hnzS hpos hfresh
              have hfresh₁ : ∀ nd ∈ entries s₁, nd.key ≠ k := by
                intro nd hnd
                exact hfresh nd ((R5 nd).mp hnd)
              have := insertCore_fresh v R2 hfresh₁
              rw [h'] at this
              exact this
      · rw [insertF_no_resize f s k v hsz] at h
        simp only [Option.some.injEq] at h
        have h' : insertCore s k v = (r, s') := h
        have hcapeq : s'.capacity = s.capacity := by
          have := insertCore_capacity s k v
          rw [h'] at this
          exact this
        refine ⟨insertCore_WF hwf h', fun hz => insertCore_NZ hz h', le_of_eq hcapeq.symm,
          insertCore_mem_entries h', ?_⟩
        intro hnzS _ hfresh
        have := insertCore_fresh v hnzS hfresh
        rw [h'] at this
        exact this
    · -- resize
      intro s s' n r hwf hn h
      rw [resizeF_valid f s (by omega)] at h
      have hflat : ((s.cache.map Prod.snd).flatMap id) = entries s := flat_map_snd s.cache
      have hwfE : WF (⟨[], n⟩ : DataStore α) := WF_empty n
      have hnzE : NZ (⟨[], n⟩ : DataStore α) := NZ_empty n
      have hnodup : (((s.cache.map Prod.snd).flatMap id).map Node.key).Nodup := by
        rw [hflat]; exact entries_keys_nodup hwf
      have hdisj : ∀ nd ∈ entries (⟨[], n⟩ : DataStore α),
          ∀ nd' ∈ (s.cache.map Prod.snd).flatMap id, nd.key ≠ nd'.key := by
        intro nd hnd
        rw [entries_empty] at hnd
        exact absurd hnd (by simp)
      obtain ⟨H1, H2, H3, H4, H5, H6⟩ :=
        ihH ⟨[], n⟩ s' (s.cache.map Prod.snd) r hwfE hnzE hn hnodup hdisj h
      refine ⟨H1, H2, H3, H4, ?_, ?_⟩
      · intro nd
        rw [H5 nd, entries_empty, hflat]
        simp
      · intro hlen
        have := H6 (by rw [hflat]; simpa [entries_empty] using hlen)
        rw [hflat] at this
        simpa [entries_empty] using this
    · -- rehash
      intro t t' chains r hwf hnz hcap hnodup hdisj h
      cases chains with
      | nil =>
        rw [rehashF_nil] at h
        simp only [Option.some.injEq, Prod.mk.injEq] at h
        obtain ⟨hr, ht⟩ := h
        subst ht
        exact ⟨hwf, hnz, hr.symm, le_refl _, by simp, by simp⟩
      | cons c rest =>
        cases c with
        | nil =>
          rw [rehashF_nil_chain] at h
          have hnodup' : ((rest.flatMap id).map Node.key).Nodup := by
            simpa using hnodup
          have hdisj' : ∀ nd ∈ entries t, ∀ nd' ∈ rest.flatMap id, nd.key ≠ nd'.key := by
            intro nd hnd nd' hnd'
            exact hdisj nd hnd nd' (by simpa using hnd')
          obtain ⟨H1, H2, H3, H4, H5, H6⟩ := ihH t t' rest r hwf hnz hcap hnodup' hdisj' h
          refine ⟨H1, H2, H3, H4, ?_, ?_⟩
          · intro nd
            rw [H5 nd]
            simp
          · intro hlen
            have := H6 (by simpa using hlen)
            simpa using this
        | cons nd tl =>
          rw [rehashF_cons] at h
          cases hins : insertF f t nd.key nd.value with
          | none => rw [hins] at h; exact absurd h (by simp)
          | some p =>
            obtain ⟨r₂, t₂⟩ := p
            rw [hins] at h
            obtain ⟨A1, A2, A5c, A3, A4⟩ := ihI t t₂ nd.key nd.value r₂ hwf hins
            have heta : (⟨nd.key, nd.value⟩ : Node α) = nd := rfl
            have hmemflat : nd ∈ ((nd :: tl) :: rest).flatMap id := by simp
            have hfreshT : ∀ x ∈ entries t, x.key ≠ nd.key := by
              intro x hx
              exact hdisj x hx nd hmemflat
            have hr₂ : r₂ = Except.ok ⟨nd.key, nd.value⟩ := A4 hnz hcap hfreshT
            subst hr₂
            dsimp only at h
            have hflatkeys : ((nd :: (tl ++ rest.flatMap id)).map Node.key).Nodup := by
              simpa using hnodup
            have hkeytl : nd.key ∉ ((tl ++ rest.flatMap id).map Node.key) := by
              have := hflatkeys
              simp only [List.map_cons, List.nodup_cons] at this
              exact this.1
            have hnodup₂ : (((tl :: rest).flatMap id).map Node.key).Nodup := by
              have := hflatkeys
              simp only [List.map_cons, List.nodup_cons] at this
              simpa using this.2
            have hdisj₂ : ∀ x ∈ entries t₂, ∀ y ∈ (tl :: rest).flatMap id,
                x.key ≠ y.key := by
              intro x hx y hy
              have hy' : y ∈ tl ++ rest.flatMap id := by simpa using hy
              rcases (A3 x).mp hx with hx' | hx'
              · exact hdisj x hx' y (by
                  simp only [List.flatMap_cons, id_eq, List.cons_append, List.mem_cons]
                  right
                  simpa using hy')
              · rw [hx'.2, heta]
                intro hxy
                exact hkeytl (hxy ▸ List.mem_map.mpr ⟨y, hy', rfl⟩)
            have hcap₂ : 0 < t₂.capacity := lt_of_lt_of_le hcap A5c
            obtain ⟨H1, H2, H3, H4, H5, H6⟩ :=
              ihH t₂ t' (tl :: rest) r A1 (A2 hnz) hcap₂ hnodup₂ hdisj₂ h
            refine ⟨H1, H2, H3, A5c.trans H4, ?_, ?_⟩
            · intro x
              rw [H5 x]
              constructor
              · intro hx
                rcases hx with hx | hx
                · rcases (A3 x).mp hx with hx' | hx'
                  · exact Or.inl hx'
                  · right
                    rw [hx'.2, heta]
                    simp
                · right
                  simp only [List.flatMap_cons, id_eq, List.cons_append, List.mem_cons,
                    List.mem_append]
                  have : x ∈ tl ++ rest.flatMap id := by simpa using hx
                  rcases List.mem_append.mp this with h' | h'
                  · exact Or.inr (Or.inl h')
                  · exact Or.inr (Or.inr h')
              · intro hx
                rcases hx with hx | hx
                · exact Or.inl ((A3 x).mpr (Or.inl hx))
                · have : x = nd ∨ x ∈ tl ++ rest.flatMap id := by simpa using hx
                  rcases this with h' | h'
                  · left
                    exact (A3 x).mpr (Or.inr ⟨rfl, by rw [h', heta]⟩)
                  · right
                    simpa using h'
            · intro hlen
              have hflatlen : (((nd :: tl) :: rest).flatMap id).length =
                  ((tl :: rest).flatMap id).length + 1 := by
                simp
              rw [hflatlen] at hlen
              push_cast at hlen
              have hlenT : ((entries t).length : Int) < t.capacity := by omega
              have hcore := insertF_no_trigger hnz hlenT hins
              have ht₂cap : t₂.capacity = t.capacity := by
                have := insertCore_capacity t nd.key nd.value
                rw [← hcore] at this
                exact this
              have ht₂len : (entries t₂).length = (entries t).length + 1 := by
                exact insertCore_ok_length hcore.symm
              have hlen₂ : ((entries t₂).length : Int) +
                  (((tl :: rest).flatMap id).length : Int) ≤ t₂.capacity := by
                rw [ht₂cap, ht₂len]
                push_cast
                omega
              obtain ⟨hc, hl⟩ := H6 hlen₂
              refine ⟨hc.trans ht₂cap, ?_⟩
              rw [hl, ht₂len, hflatlen]
              omega

/-! ### Update and delete structure -/

theorem update_capacity {α : Type} (s : DataStore α) (k : String) (v : α) :
    ((s.update k v).2).capacity = s.capacity := by
  unfold DataStore.update
  cases dictGet? s.cache (hash_func k) with
  | none => rfl
  | some chain =>
    dsimp only
    cases updateChain chain k v with
    | none => rfl
    | some p => rfl

theorem delete_capacity {α : Type} (s : DataStore α) (k : String) :
    ((s.delete k).2).capacity = s.capacity := by
  unfold DataStore.delete
  cases dictGet? s.cache (hash_func k) with
  | none => rfl
  | some chain =>
    dsimp only
    cases removeFirst chain k with
    | none => rfl
    | some c' => rfl

theorem dictSet_keys_map {α : Type} {cache : Cache α} {k : String} {c c' : Chain α}
    (hget : dictGet? cache k = some c) (hkeys : c'.map Node.key = c.map Node.key) :
    (dictSet cache k c').map (fun p => (p.1, p.2.map Node.key)) =
      cache.map (fun p => (p.1, p.2.map Node.key)) := by
  obtain ⟨pre, post, hsplit, -, hset⟩ := dictGet?_split hget
  rw [hset c', hsplit]
  simp [hkeys]

/-- Successful `update` characterised: the bucket chain at the digest is
rewritten by `updateChain`, nothing else changes. -/
theorem update_ok_shape {α : Type} {s s' : DataStore α} {k : String} {v : α}
    {nd : Node α} (h : s.update k v = (.ok nd, s')) :
    ∃ chain chain', dictGet? s.cache (hash_func k) = some chain ∧
      updateChain chain k v = some (nd, chain') ∧
      s' = ⟨dictSet s.cache (hash_func k) chain', s.capacity⟩ := by
  unfold DataStore.update at h
  cases hget : dictGet? s.cache (hash_func k) with
  | none => rw [hget] at h; exact absurd h (by simp)
  | some chain =>
    rw [hget] at h
    dsimp only at h
    cases hupd : updateChain chain k v with
    | none => rw [hupd] at h; exact absurd h (by simp)
    | some p =>
      obtain ⟨nd₀, chain'⟩ := p
      rw [hupd] at h
      simp only [Prod.mk.injEq, Except.ok.injEq] at h
      exact ⟨chain, chain', rfl, h.1 ▸ hupd, h.2.symm⟩

/-! ### Extracting the core call from a returned `insert` -/

theorem insertF_ok_from_core {α : Type} {fuel : Nat} {s s' : DataStore α}
    {k : String} {v : α} {nd : Node α}
    (h : insertF fuel s k v = some (.ok nd, s')) :
    ∃ s₁ : DataStore α, insertCore s₁ k v = (.ok nd, s') := by
  cases fuel with
  | zero => rw [insertF_zero] at h; exact absurd h (by simp)
  | succ f =>
    by_cases hsz : (s.size : Int) = s.capacity
    · rw [insertF_resize_step f s k v hsz] at h
      cases hres : resizeF f s (ceil15 s.capacity) with
      | none => rw [hres] at h; exact absurd h (by simp)
      | some p =>
        obtain ⟨r₂, s₁⟩ := p
        rw [hres] at h
        cases r₂ with
        | error e =>
          dsimp only at h
          exact absurd h (by simp)
        | ok u =>
          dsimp only at h
          simp only [Option.some.injEq] at h
          exact ⟨s₁, h⟩
    · rw [insertF_no_resize f s k v hsz] at h
      simp only [Option.some.injEq] at h
      exact ⟨s, h⟩

theorem insertCore_ok_contains {α : Type} {s s' : DataStore α} {k : String} {v : α}
    {nd : Node α} (h : insertCore s k v = (.ok nd, s')) :
    s'.contains (hash_func k) = true := by
  rcases insertCore_cases s k v with ⟨hget, heq⟩ | ⟨hget, heq⟩ |
    ⟨c, hget, hc, hany, heq⟩ | ⟨c, hget, hc, hany, heq⟩ <;>
    rw [heq] at h <;> simp only [Prod.mk.injEq] at h
  · rw [← h.2]
    unfold DataStore.contains dictContains
    rw [dictGet?_dictSet_self]
    rfl
  · exact absurd h.1 (by simp)
  · exact absurd h.1 (by simp)
  · rw [← h.2]
    unfold DataStore.contains dictContains
    rw [dictGet?_dictSet_self]
    rfl

theorem singleton_chains_entries_length {α : Type} :
    ∀ cache : Cache α, (∀ p ∈ cache, p.2.length = 1) →
      (cache.flatMap Prod.snd).length = cache.length := by
  intro cache
  induction cache with
  | nil => simp
  | cons p rest ih =>
    intro hone
    simp only [List.flatMap_cons, List.length_append, List.length_cons]
    rw [hone p (List.mem_cons_self _ _), ih fun q hq => hone q (List.mem_cons_of_mem _ hq)]
    omega

/-! ### Claims -/

/-- C1, counterexample: after a successful `insert("a", 1)` on a fresh table,
a bucket exists under the digest `hash_func "a"` (third component), yet
`contains "a"` is `false` (first component) — `contains` never hashes its
argument, so the claimed equivalence, and in particular
`contains(k) = true` right after `insert(k, v)`, fails. -/
theorem c1_counterexample :
    (insertF 20 (DataStore.init 10 : DataStore Nat) "a" 1).map
      (fun p => (p.2.contains "a", p.2.contains (hash_func "a"),
        (dictGet? p.2.cache (hash_func "a")).isSome)) =
    some (false, true, true) := by decide

/-- C1 (amended): `contains(key)` tests whether the raw `key` string itself
is a key of the bucket map — equivalently, whether a bucket exists under
`key`, not under `hash_func key`.  Consequently what a successful
`insert(k, v)` makes true is `contains(hash_func k)`, not `contains(k)`. -/
theorem c1_contains_raw_key {α : Type} :
    (∀ (s : DataStore α) (key : String),
      s.contains key = true ↔ ∃ c, dictGet? s.cache key = some c) ∧
    (∀ (fuel : Nat) (s s' : DataStore α) (k : String) (v : α) (nd : Node α),
      insertF fuel s k v = some (.ok nd, s') →
      s'.contains (hash_func k) = true) := by
  constructor
  · intro s key
    unfold DataStore.contains dictContains
    cases h : dictGet? s.cache key <;> simp [h]
  · intro fuel s s' k v nd h
    obtain ⟨s₁, h'⟩ := insertF_ok_from_core h
    exact insertCore_ok_contains h'

/-- C1 witness: the amended statement applied on a concrete table. -/
theorem c1_witness :
    ((DataStore.init 10 : DataStore Nat).contains "a" = true ↔
      ∃ c, dictGet? (DataStore.init 10 : DataStore Nat).cache "a" = some c) ∧
    (⟨[(hash_func "a", [⟨"a", (1 : Nat)⟩])], 10⟩ : DataStore Nat).contains
      (hash_func "a") = true := by
  constructor
  · exact c1_contains_raw_key.1 (DataStore.init 10) "a"
  · exact c1_contains_raw_key.2 20 (DataStore.init 10)
      ⟨[(hash_func "a", [⟨"a", (1 : Nat)⟩])], 10⟩ "a" 1 ⟨"a", 1⟩ (by decide)

/-- C2 (code bug): on a reachable state in which key `"x"`'s bucket chain was
emptied by a prior delete, `insert("x", 11)` does not succeed — the leftover
debug statement `print(cur_node.key)` dereferences the `None` bucket head and
raises `AttributeError` before any insertion logic runs.  The term below
replays `insert("x",10); delete("x"); insert("x",11)` from a fresh table and
evaluates to that error, with the table left in the emptied-bucket state. -/
theorem c2_insert_after_delete_crashes :
    ((insertF 20 (DataStore.init 10 : DataStore Nat) "x" 10).bind fun p1 =>
      insertF 20 ((p1.2.delete "x").2) "x" 11) =
    some (.error .attributeError, ⟨[(hash_func "x", [])], 10⟩) := by decide

/-- C3: `update` and `delete` on a key whose digest has no bucket fail with
the dict-access `KeyError`, which the specification's §7 taxonomy classes as
`KeyNotFoundError`; the state is returned unchanged. -/
theorem c3_missing_bucket_errors {α : Type} (s : DataStore α) (k : String) (v : α)
    (h : dictGet? s.cache (hash_func k) = none) :
    s.update k v = (.error (.keyError (hash_func k)), s) ∧
    s.delete k = (.error (.keyError (hash_func k)), s) ∧
    isKeyNotFoundError (.keyError (hash_func k)) = true := by
  refine ⟨?_, ?_, rfl⟩
  · unfold DataStore.update
    rw [h]
  · unfold DataStore.delete
    rw [h]

/-- C3 witness: a never-inserted key on the freshly constructed table. -/
theorem c3_witness :
    (DataStore.init 10 : DataStore Nat).update "q" 7 =
      (.error (.keyError (hash_func "q")), DataStore.init 10) ∧
    (DataStore.init 10 : DataStore Nat).delete "q" =
      (.error (.keyError (hash_func "q")), DataStore.init 10) ∧
    isKeyNotFoundError (.keyError (hash_func "q")) = true :=
  c3_missing_bucket_errors (DataStore.init 10) "q" 7 rfl

/-- C4, counterexample: on a table of capacity 1 holding `"a"`, the second
`insert("a", 2)` does fail with `DuplicateKeyError` — but the failed call has
already grown the table: capacity was 1 before the call and is 2 after it,
so the table is not left unchanged. -/
theorem c4_counterexample :
    ((insertF 20 (DataStore.init 1 : DataStore Nat) "a" 1).bind fun p1 =>
      (insertF 20 p1.2 "a" 2).map fun p2 =>
        (p1.1.toOption.isSome, p1.2.capacity, p2.1, p2.2.capacity,
          decide (p2.2 = p1.2))) =
    some (true, 1, .error (.duplicateKey "a"), 2, false) := by decide

/-- C4 (amended): when the growth check does not fire (`size ≠ capacity`),
inserting a key that `search` already finds fails with `DuplicateKeyError`
and returns the table exactly unchanged; when `size == capacity` the
pre-insert resize runs first and mutates the table even though the insert
then fails (the counterexample). -/
theorem c4_duplicate_insert_unchanged {α : Type} (fuel : Nat) (s : DataStore α)
    (k : String) (v₂ : α) (hsz : ¬((s.size : Int) = s.capacity))
    (hdup : ∃ nd, s.search k = some nd) :
    insertF (fuel + 1) s k v₂ = some (.error (.duplicateKey k), s) := by
  rw [insertF_no_resize fuel s k v₂ hsz]
  obtain ⟨nd, hnd⟩ := hdup
  unfold DataStore.search at hnd
  cases hget : dictGet? s.cache (hash_func k) with
  | none => rw [hget] at hnd; exact absurd hnd (by simp)
  | some chain =>
    rw [hget] at hnd
    dsimp only at hnd
    have hmem := List.mem_of_find?_eq_some hnd
    have hkey := List.find?_some hnd
    have hanyT : chain.any (fun n => n.key == k) = true :=
      List.any_eq_true.mpr ⟨nd, hmem, hkey⟩
    have hchne : chain ≠ [] := by
      rintro rfl
      simp at hmem
    rcases insertCore_cases s k v₂ with ⟨hget', -⟩ | ⟨hget', -⟩ |
      ⟨c', hget', -, -, heq⟩ | ⟨c', hget', -, hany', -⟩
    · rw [hget'] at hget; exact absurd hget (by simp)
    · rw [hget'] at hget
      simp only [Option.some.injEq] at hget
      exact absurd hget.symm hchne
    · rw [heq]
    · rw [hget'] at hget
      simp only [Option.some.injEq] at hget
      rw [hget] at hany'
      rw [hanyT] at hany'
      exact absurd hany' (by simp)

/-- C4 witness: the amended statement on a concrete one-entry table whose
size (1) differs from its capacity (10). -/
theorem c4_witness :
    insertF 20 (⟨[(hash_func "a", [⟨"a", (1 : Nat)⟩])], 10⟩ : DataStore Nat) "a" 2 =
      some (.error (.duplicateKey "a"),
        ⟨[(hash_func "a", [⟨"a", (1 : Nat)⟩])], 10⟩) :=
  c4_duplicate_insert_unchanged 19 _ "a" 2 (by decide) ⟨⟨"a", 1⟩, by decide⟩

/-- C5, counterexample: `insert("x",10); delete("x")` on a fresh table: the
delete succeeds, but afterwards `size` is still 1 (not 0) and a bucket still
exists under `hash_func "x"` (mapped to a `None` head) — the bucket entry is
not removed and `size` does not decrease. -/
theorem c5_counterexample :
    ((insertF 20 (DataStore.init 10 : DataStore Nat) "x" 10).map fun p1 =>
      ((p1.2.delete "x").1, ((p1.2.delete "x").2).size,
        ((p1.2.delete "x").2).contains (hash_func "x"),
        ((p1.2.delete "x").2).search "x")) =
    some (.ok (), 1, true, none) := by decide

/-- C5 (amended): deleting the sole node of its bucket succeeds and empties
the chain, but the bucket entry stays in the table with a `None` head: a
bucket still exists under `hash_func k`, `size` is unchanged, and a
subsequent `search k` returns `none`. -/
theorem c5_delete_sole_node {α : Type} (s : DataStore α) (k : String) (nd : Node α)
    (hget : dictGet? s.cache (hash_func k) = some [nd]) (hkey : nd.key = k) :
    s.delete k = (.ok (), ⟨dictSet s.cache (hash_func k) [], s.capacity⟩) ∧
    dictGet? (dictSet s.cache (hash_func k) []) (hash_func k) = some [] ∧
    (⟨dictSet s.cache (hash_func k) [], s.capacity⟩ : DataStore α).size = s.size ∧
    (⟨dictSet s.cache (hash_func k) [], s.capacity⟩ : DataStore α).contains
      (hash_func k) = true ∧
    (⟨dictSet s.cache (hash_func k) [], s.capacity⟩ : DataStore α).search k = none := by
  have hrem : removeFirst [nd] k = some [] := by
    unfold removeFirst
    rw [if_pos hkey]
  refine ⟨?_, dictGet?_dictSet_self [], ?_, ?_, ?_⟩
  · unfold DataStore.delete
    rw [hget]
    dsimp only
    rw [hrem]
  · unfold DataStore.size
    exact dictSet_length_present hget []
  · unfold DataStore.contains dictContains
    rw [dictGet?_dictSet_self]
    rfl
  · unfold DataStore.search
    rw [dictGet?_dictSet_self]
    rfl

/-- C5 witness: the amended statement on the one-node table for `"x"`. -/
theorem c5_witness :
    (⟨[(hash_func "x", [⟨"x", (10 : Nat)⟩])], 10⟩ : DataStore Nat).delete "x" =
      (.ok (), ⟨dictSet [(hash_func "x", [⟨"x", (10 : Nat)⟩])] (hash_func "x") [], 10⟩) ∧
    dictGet? (dictSet [(hash_func "x", [⟨"x", (10 : Nat)⟩])] (hash_func "x") [])
      (hash_func "x") = some [] ∧
    (⟨dictSet [(hash_func "x", [⟨"x", (10 : Nat)⟩])] (hash_func "x") [], 10⟩ :
      DataStore Nat).size =
      (⟨[(hash_func "x", [⟨"x", (10 : Nat)⟩])], 10⟩ : DataStore Nat).size ∧
    (⟨dictSet [(hash_func "x", [⟨"x", (10 : Nat)⟩])] (hash_func "x") [], 10⟩ :
      DataStore Nat).contains (hash_func "x") = true ∧
    (⟨dictSet [(hash_func "x", [⟨"x", (10 : Nat)⟩])] (hash_func "x") [], 10⟩ :
      DataStore Nat).search "x" = none :=
  c5_delete_sole_node _ "x" ⟨"x", 10⟩ (by decide) rfl

/-- C6, counterexample: resizing a three-entry table to `n = 1` succeeds and
preserves all three pairs, but the rehash re-triggers growth twice, so the
final capacity is 3, not the requested 1 — `capacity` does not equal `n`
afterwards. -/
theorem c6_counterexample :
    ((insertF 20 (DataStore.init 10 : DataStore Nat) "a" 1).bind fun p1 =>
      (insertF 20 p1.2 "b" 2).bind fun p2 =>
      (insertF 20 p2.2 "c" 3).bind fun p3 =>
      resizeF 40 p3.2 1) =
    some (.ok (), ⟨[(hash_func "a", [⟨"a", 1⟩]), (hash_func "b", [⟨"b", 2⟩]),
      (hash_func "c", [⟨"c", 3⟩])], 3⟩) ∧
    (⟨[(hash_func "a", [⟨"a", (1 : Nat)⟩]), (hash_func "b", [⟨"b", 2⟩]),
      (hash_func "c", [⟨"c", 3⟩])], 3⟩ : DataStore Nat).capacity ≠ 1 ∧
    (⟨[(hash_func "a", [⟨"a", (1 : Nat)⟩]), (hash_func "b", [⟨"b", 2⟩]),
      (hash_func "c", [⟨"c", 3⟩])], 3⟩ : DataStore Nat).search "a" = some ⟨"a", 1⟩ ∧
    (⟨[(hash_func "a", [⟨"a", (1 : Nat)⟩]), (hash_func "b", [⟨"b", 2⟩]),
      (hash_func "c", [⟨"c", 3⟩])], 3⟩ : DataStore Nat).search "b" = some ⟨"b", 2⟩ ∧
    (⟨[(hash_func "a", [⟨"a", (1 : Nat)⟩]), (hash_func "b", [⟨"b", 2⟩]),
      (hash_func "c", [⟨"c", 3⟩])], 3⟩ : DataStore Nat).search "c" = some ⟨"c", 3⟩ := by
  refine ⟨by decide, by decide, by decide, by decide, by decide⟩

/-- C6 (amended): on a well-formed table, `resize n` with `n > 0` (when it
returns within the given fuel) succeeds, preserves every stored key/value
binding, and ends with `capacity ≥ n` — with equality whenever `n` is at
least the number of stored nodes; a smaller `n` re-triggers growth during
the rehash and the final capacity exceeds `n` (the counterexample). -/
theorem c6_resize_preserves {α : Type} (fuel : Nat) (s s' : DataStore α) (n : Int)
    (r : Except StoreError Unit) (hwf : WF s) (hn : 0 < n)
    (h : resizeF fuel s n = some (r, s')) :
    r = .ok () ∧ (∀ k v, mapsTo s k v → mapsTo s' k v) ∧ n ≤ s'.capacity ∧
    (((entries s).length : Int) ≤ n → s'.capacity = n) := by
  obtain ⟨R1, R2, R3, R4, R5, R6⟩ := (storeInv fuel).2.1 s s' n r hwf hn h
  refine ⟨R3, ?_, R4, fun hl => (R6 hl).1⟩
  intro k v hm
  exact mem_entries_mapsTo R1 ((R5 _).mpr (mapsTo_mem_entries hm))

/-- C6 witness: resizing a one-entry table from capacity 10 to 5. -/
theorem c6_witness :
    mapsTo (⟨[(hash_func "a", [⟨"a", (1 : Nat)⟩])], 5⟩ : DataStore Nat) "a" 1 ∧
    (⟨[(hash_func "a", [⟨"a", (1 : Nat)⟩])], 5⟩ : DataStore Nat).capacity = 5 := by
  have h := c6_resize_preserves 20 (⟨[(hash_func "a", [⟨"a", (1 : Nat)⟩])], 10⟩)
    (⟨[(hash_func "a", [⟨"a", (1 : Nat)⟩])], 5⟩) 5 (.ok ()) (by decide) (by decide)
    (by decide)
  exact ⟨h.2.1 "a" 1 (by decide), h.2.2.2 (by decide)⟩

/-- C7: from a full table (`size == capacity`, every populated bucket holding
exactly one node) a successful insert of a fresh key runs the growth resize
first and completes with capacity `ceil(capacity * 1.5)`; the new key and
every old binding are then searchable. -/
theorem c7_growth_trigger {α : Type} (fuel : Nat) (s s' : DataStore α) (k : String)
    (v : α) (nd : Node α) (hwf : WF s)
    (hone : ∀ p ∈ s.cache, p.2.length = 1)
    (hsz : (s.size : Int) = s.capacity)
    (hfresh : ∀ x ∈ entries s, x.key ≠ k)
    (h : insertF fuel s k v = some (.ok nd, s')) :
    s'.capacity = ceil15 s.capacity ∧ mapsTo s' k v ∧
    ∀ k' v', mapsTo s k' v' → mapsTo s' k' v' := by
  have hnz : NZ s := by
    intro p hp hnil
    have := hone p hp
    rw [hnil] at this
    simp at this
  have hentlen : (entries s).length = s.size :=
    singleton_chains_entries_length s.cache hone
  cases fuel with
  | zero => rw [insertF_zero] at h; exact absurd h (by simp)
  | succ f =>
    rw [insertF_resize_step f s k v hsz] at h
    cases hres : resizeF f s (ceil15 s.capacity) with
    | none => rw [hres] at h; exact absurd h (by simp)
    | some p =>
      obtain ⟨r₂, s₁⟩ := p
      rw [hres] at h
      cases r₂ with
      | error e => dsimp only at h; exact absurd h (by simp)
      | ok u =>
        dsimp only at h
        simp only [Option.some.injEq] at h
        have hn : 0 < ceil15 s.capacity := by
          by_contra hn0
          push_neg at hn0
          cases f with
          | zero => rw [resizeF_zero] at hres; exact absurd hres (by simp)
          | succ f' =>
            rw [resizeF_invalid f' s hn0] at hres
            simp at hres
        obtain ⟨R1, R2, R3, R4, R5, R6⟩ :=
          (storeInv f).2.1 s s₁ (ceil15 s.capacity) (.ok u) hwf hn hres
        have hcap0 : (0 : Int) ≤ s.capacity := by
          rw [← hsz]
          exact Int.natCast_nonneg _
        have hlen : ((entries s).length : Int) ≤ ceil15 s.capacity := by
          have hc : ((entries s).length : Int) = (s.size : Int) := by
            exact_mod_cast congrArg Nat.cast hentlen
          rw [hc, hsz]
          exact ceil15_ge_self hcap0
        obtain ⟨hcapn, -⟩ := R6 hlen
        have hfresh₁ : ∀ x ∈ entries s₁, x.key ≠ k := fun x hx =>
          hfresh x ((R5 x).mp hx)
        have hok := insertCore_fresh v R2 hfresh₁
        rw [h] at hok
        have hWF' := insertCore_WF R1 h
        have hcap' : s'.capacity = s₁.capacity := by
          have hc := insertCore_capacity s₁ k v
          rw [h] at hc
          exact hc
        refine ⟨hcap'.trans hcapn, ?_, ?_⟩
        · apply mem_entries_mapsTo hWF'
          exact (insertCore_mem_entries h ⟨k, v⟩).mpr (Or.inr ⟨hok, rfl⟩)
        · intro k' v' hm
          apply mem_entries_mapsTo hWF'
          exact (insertCore_mem_entries h ⟨k', v'⟩).mpr
            (Or.inl ((R5 _).mpr (mapsTo_mem_entries hm)))

/-- C7 witness: the specification's own scenario — capacity 2 holding
`"a"` and `"b"`, then `insert("c", 3)` grows to `ceil(2 * 1.5) = 3` with all
three keys searchable. -/
theorem c7_witness :
    (⟨[(hash_func "a", [⟨"a", (1 : Nat)⟩]), (hash_func "b", [⟨"b", 2⟩]),
        (hash_func "c", [⟨"c", 3⟩])], 3⟩ : DataStore Nat).capacity = ceil15 2 ∧
    mapsTo (⟨[(hash_func "a", [⟨"a", (1 : Nat)⟩]), (hash_func "b", [⟨"b", 2⟩]),
        (hash_func "c", [⟨"c", 3⟩])], 3⟩ : DataStore Nat) "c" 3 ∧
    mapsTo (⟨[(hash_func "a", [⟨"a", (1 : Nat)⟩]), (hash_func "b", [⟨"b", 2⟩]),
        (hash_func "c", [⟨"c", 3⟩])], 3⟩ : DataStore Nat) "a" 1 := by
  have h := c7_growth_trigger 20
    (⟨[(hash_func "a", [⟨"a", (1 : Nat)⟩]), (hash_func "b", [⟨"b", 2⟩])], 2⟩)
    (⟨[(hash_func "a", [⟨"a", (1 : Nat)⟩]), (hash_func "b", [⟨"b", 2⟩]),
        (hash_func "c", [⟨"c", 3⟩])], 3⟩)
    "c" 3 ⟨"c", 3⟩ (by decide) (by decide) (by decide) (by decide) (by decide)
  exact ⟨h.1, h.2.1, h.2.2 "a" 1 (by decide)⟩

/-- C8, counterexample: the constructor performs no validation, so
`DataStore(capacity=0)` yields a live table whose capacity is 0 — the
claimed "capacity > 0 at all times, enforced by the constructor" fails at
construction. -/
theorem c8_counterexample : (DataStore.init 0 : DataStore Nat).capacity = 0 := rfl

/-- C8 (amended): the constructor stores any capacity unvalidated (so a
non-positive initial capacity is representable); `resize n` with `n ≤ 0`
fails with `InvalidCapacityError` leaving the table untouched; `update` and
`delete` never change the capacity; and from a positive capacity both
`insert` and valid `resize` keep the capacity positive. -/
theorem c8_capacity_policy {α : Type} :
    (∀ c : Int, (DataStore.init c : DataStore α).capacity = c) ∧
    (∀ (fuel : Nat) (s : DataStore α) (n : Int), n ≤ 0 →
      resizeF (fuel + 1) s n = some (.error .invalidCapacity, s)) ∧
    (∀ (s : DataStore α) (k : String) (v : α),
      ((s.update k v).2).capacity = s.capacity) ∧
    (∀ (s : DataStore α) (k : String), ((s.delete k).2).capacity = s.capacity) ∧
    (∀ (fuel : Nat) (s s' : DataStore α) (k : String) (v : α)
      (r : Except StoreError (Node α)), WF s → 0 < s.capacity →
      insertF fuel s k v = some (r, s') → 0 < s'.capacity) ∧
    (∀ (fuel : Nat) (s s' : DataStore α) (n : Int) (r : Except StoreError Unit),
      WF s → 0 < n → resizeF fuel s n = some (r, s') → 0 < s'.capacity) := by
  refine ⟨fun c => rfl, fun fuel s n h => resizeF_invalid fuel s h,
    update_capacity, delete_capacity, ?_, ?_⟩
  · intro fuel s s' k v r hwf hpos h
    have := ((storeInv fuel).1 s s' k v r hwf h).2.2.1
    omega
  · intro fuel s s' n r hwf hn h
    have := ((storeInv fuel).2.1 s s' n r hwf hn h).2.2.2.1
    omega

/-- C8 witness: each clause of the amended policy at concrete inputs. -/
theorem c8_witness :
    (DataStore.init 7 : DataStore Nat).capacity = 7 ∧
    resizeF 1 (DataStore.init 10 : DataStore Nat) 0 =
      some (.error .invalidCapacity, DataStore.init 10) ∧
    ((DataStore.init 10 : DataStore Nat).update "q" 7).2.capacity =
      (DataStore.init 10 : DataStore Nat).capacity ∧
    ((DataStore.init 10 : DataStore Nat).delete "q").2.capacity =
      (DataStore.init 10 : DataStore Nat).capacity ∧
    (0 : Int) < (⟨[(hash_func "a", [⟨"a", (1 : Nat)⟩])], 10⟩ : DataStore Nat).capacity ∧
    (0 : Int) < (⟨[(hash_func "a", [⟨"a", (1 : Nat)⟩])], 5⟩ : DataStore Nat).capacity := by
  refine ⟨c8_capacity_policy.1 7, c8_capacity_policy.2.1 0 (DataStore.init 10) 0 (by omega),
    c8_capacity_policy.2.2.1 (DataStore.init 10) "q" 7,
    c8_capacity_policy.2.2.2.1 (DataStore.init 10) "q", ?_, ?_⟩
  · exact c8_capacity_policy.2.2.2.2.1 20 (DataStore.init 10)
      (⟨[(hash_func "a", [⟨"a", (1 : Nat)⟩])], 10⟩) "a" 1 (.ok ⟨"a", 1⟩)
      (by decide) (by decide) (by decide)
  · exact c8_capacity_policy.2.2.2.2.2 20 (⟨[(hash_func "a", [⟨"a", (1 : Nat)⟩])], 10⟩)
      (⟨[(hash_func "a", [⟨"a", (1 : Nat)⟩])], 5⟩) 5 (.ok ())
      (by decide) (by decide) (by decide)

/-- C10: a successful `update k v` is a frame-preserving value overwrite:
for any other key `k'`, `search k'` is unchanged; capacity and size are
unchanged; and the bucket structure — every bucket's digest and the keys of
its chain, in order — is unchanged. -/
theorem c10_update_frame {α : Type} (s s' : DataStore α) (k k' : String) (v : α)
    (nd : Node α) (hup : s.update k v = (.ok nd, s')) (hne : k' ≠ k) :
    s'.search k' = s.search k' ∧ s'.capacity = s.capacity ∧ s'.size = s.size ∧
    s'.cache.map (fun p => (p.1, p.2.map Node.key)) =
      s.cache.map (fun p => (p.1, p.2.map Node.key)) := by
  obtain ⟨chain, chain', hget, hupd, hs'⟩ := update_ok_shape hup
  obtain ⟨hnd, hkeys⟩ := updateChain_some hupd
  subst hs'
  refine ⟨?_, rfl, ?_, dictSet_keys_map hget hkeys⟩
  · unfold DataStore.search
    by_cases hh : hash_func k' = hash_func k
    · rw [hh, dictGet?_dictSet_self, hget]
      dsimp only
      exact updateChain_find?_ne hupd hne
    · rw [dictGet?_dictSet_ne _ hh]
  · unfold DataStore.size
    exact dictSet_length_present hget _

/-- C10 witness: updating `"a"` in a two-key table leaves `"b"` untouched. -/
theorem c10_witness :
    (⟨[(hash_func "a", [⟨"a", (5 : Nat)⟩]), (hash_func "b", [⟨"b", 2⟩])], 10⟩ :
      DataStore Nat).search "b" =
      (⟨[(hash_func "a", [⟨"a", (1 : Nat)⟩]), (hash_func "b", [⟨"b", 2⟩])], 10⟩ :
        DataStore Nat).search "b" ∧
    (⟨[(hash_func "a", [⟨"a", (5 : Nat)⟩]), (hash_func "b", [⟨"b", 2⟩])], 10⟩ :
      DataStore Nat).capacity =
      (⟨[(hash_func "a", [⟨"a", (1 : Nat)⟩]), (hash_func "b", [⟨"b", 2⟩])], 10⟩ :
        DataStore Nat).capacity ∧
    (⟨[(hash_func "a", [⟨"a", (5 : Nat)⟩]), (hash_func "b", [⟨"b", 2⟩])], 10⟩ :
      DataStore Nat).size =
      (⟨[(hash_func "a", [⟨"a", (1 : Nat)⟩]), (hash_func "b", [⟨"b", 2⟩])], 10⟩ :
        DataStore Nat).size ∧
    (⟨[(hash_func "a", [⟨"a", (5 : Nat)⟩]), (hash_func "b", [⟨"b", 2⟩])], 10⟩ :
        DataStore Nat).cache.map (fun p => (p.1, p.2.map Node.key)) =
      (⟨[(hash_func "a", [⟨"a", (1 : Nat)⟩]), (hash_func "b", [⟨"b", 2⟩])], 10⟩ :
        DataStore Nat).cache.map (fun p => (p.1, p.2.map Node.key)) := by
  have h := c10_update_frame
    (⟨[(hash_func "a", [⟨"a", (1 : Nat)⟩]), (hash_func "b", [⟨"b", 2⟩])], 10⟩)
    (⟨[(hash_func "a", [⟨"a", (5 : Nat)⟩]), (hash_func "b", [⟨"b", 2⟩])], 10⟩)
    "a" "b" 5 ⟨"a", 5⟩ (by decide) (by decide)
  exact h

end Storage
